import Mathlib

/- A shallow embedding of `brickschema/persistent.py` (the class
`VersionedGraphCollection`, its `Changeset` scopes and its hook
registry), together with theorems about the undo/redo/time-travel
behaviour of the versioned triple store. -/

/-- Timestamps: `datetime.now().isoformat()` strings compare
lexicographically, which agrees with chronological order; they are
modelled as naturals with the usual order. -/
abbrev Ts := Nat

/-- An RDF triple is opaque to this subsystem (only identity/equality
matters); modelled as a 3-tuple of strings. -/
abbrev Triple := String × String × String

/-- One row of the `changesets` / `redos` tables:
`(id, timestamp, graph, is_insertion, triple)`. -/
structure Row where
  id : String
  ts : Ts
  graph : String
  isInsertion : Bool
  triple : Triple
deriving DecidableEq

/-- The live store of the `ConjunctiveGraph`: a collection of
(context identifier, triple) pairs.  `rdflib` keeps one triple set per
context. -/
abbrev Live := List (String × Triple)

/-- The identifier of the default context of the `ConjunctiveGraph`
(`self.default_context`), distinct from every named graph. -/
def defaultContext : String := "default-context"

/-- Set-like insertion (rdflib graphs are sets of triples). -/
def setAdd {α : Type} [DecidableEq α] (x : α) (l : List α) : List α :=
  if x ∈ l then l else l ++ [x]

/-- `self.get_context(g).add(t)`: adds the triple to context `g` only. -/
def ctxAdd (g : String) (t : Triple) (live : Live) : Live :=
  setAdd (g, t) live

/-- `self.get_context(g).remove(t)`: removes the triple from context
`g` only. -/
def ctxRemove (g : String) (t : Triple) (live : Live) : Live :=
  live.filter (fun p => p != (g, t))

/-- `ConjunctiveGraph.add(t)`: adds the triple to the default context. -/
def cgAdd (t : Triple) (live : Live) : Live :=
  ctxAdd defaultContext t live

/-- `ConjunctiveGraph.remove(t)`: removes the triple from every
context (`store.remove` with `context=None`). -/
def cgRemove (t : Triple) (live : Live) : Live :=
  live.filter (fun p => p.2 != t)

/-- Scan step for `ORDER BY timestamp DESC LIMIT 1`: keep the first
row carrying the strictly greatest timestamp. -/
def maxTsRowAux : Option Row → List Row → Option Row
  | acc, [] => acc
  | none, r :: rest => maxTsRowAux (some r) rest
  | some m, r :: rest => maxTsRowAux (if m.ts < r.ts then some r else some m) rest

def maxTsRow (l : List Row) : Option Row := maxTsRowAux none l

/-- Scan for `ORDER BY timestamp ASC LIMIT 1`. -/
def minTsRowAux : Option Row → List Row → Option Row
  | acc, [] => acc
  | none, r :: rest => minTsRowAux (some r) rest
  | some m, r :: rest => minTsRowAux (if r.ts < m.ts then some r else some m) rest

def minTsRow (l : List Row) : Option Row := minTsRowAux none l

/-- Stable insertion for a descending sort by timestamp. -/
def insertTsDesc {α : Type} (key : α → Ts) (r : α) : List α → List α
  | [] => [r]
  | x :: xs => if key r ≤ key x then x :: insertTsDesc key r xs else r :: x :: xs

/-- Stable descending sort by timestamp (`ORDER BY timestamp DESC`). -/
def sortTsDesc {α : Type} (key : α → Ts) (l : List α) : List α :=
  l.foldl (fun acc r => insertTsDesc key r acc) []

/-- `WHERE graph = :g` when a graph filter is given. -/
def graphMatches (g? : Option String) (g : String) : Bool :=
  match g? with
  | some gg => g == gg
  | none => true

/-- `SELECT * FROM changesets WHERE [graph = :g AND] timestamp > :ts
ORDER BY timestamp DESC` (the row selection shared by `_graph_at`). -/
def rowsSince (rows : List Row) (t : Ts) (g? : Option String) : List Row :=
  sortTsDesc (fun r => r.ts)
    (rows.filter (fun r => graphMatches g? r.graph && decide (t < r.ts)))

/-- `_graph_at` applied to a plain `Graph` working copy (the `graph_at`
call site): an `is_insertion` row adds its triple, any other row
removes it. -/
def graph_at_plain (g0 : List Triple) (rows : List Row) (t : Ts) (g? : Option String) :
    List Triple :=
  (rowsSince rows t g?).foldl
    (fun acc r =>
      if r.isInsertion then setAdd r.triple acc else acc.filter (fun x => x != r.triple))
    g0

/-- `_graph_at` applied to `self` (a `ConjunctiveGraph`), as done by
`undo` and `redo`: `add` lands in the default context while `remove`
strips the triple from every context. -/
def graph_at_cg (live : Live) (rows : List Row) (t : Ts) (g? : Option String) : Live :=
  (rowsSince rows t g?).foldl
    (fun lv r => if r.isInsertion then cgAdd r.triple lv else cgRemove r.triple lv)
    live

/-- The observable state of one `VersionedGraphCollection`: the live
contexts, the two log tables, the two hook registries (hooks are named
slots holding opaque callables, identified here by numeric ids), the
namespace bindings and the `_latest_version` attribute. -/
structure State where
  live : Live
  changesets : List Row
  redos : List Row
  precommitHooks : List (String × Nat)
  postcommitHooks : List (String × Nat)
  namespaces : List (String × String)
  latestTsField : Option Ts
deriving DecidableEq

/-- A freshly opened collection: empty tables, empty graphs. -/
def freshState : State := ⟨[], [], [], [], [], [], none⟩

/-- The exceptions the embedded code can raise.  The code raises
builtin `Exception`s with distinguishing messages ("No changesets to
undo" / "No changesets to redo"), a `TypeError` for the unguarded
`res[0]` subscript in `version_before`, and propagates hook / body
exceptions. -/
inductive Err where
  | noUndoHistory
  | noRedoHistory
  | noneSubscript
  | preHookError
  | postHookError
  | bodyException
deriving DecidableEq

/-- `latest_version`: `SELECT id, timestamp FROM changesets ORDER BY
timestamp DESC LIMIT 1`. -/
def latest_version (s : State) : Option Row := maxTsRow s.changesets

/-- `version_before`: `SELECT timestamp FROM changesets WHERE
timestamp < :ts ORDER BY timestamp DESC LIMIT 1`, then `res[0]`; the
`none` result models `fetchone()` returning `None`, which the source
subscripts without a guard. -/
def version_before (s : State) (t : Ts) : Option Ts :=
  (maxTsRow (s.changesets.filter (fun r => decide (r.ts < t)))).map (fun r => r.ts)

/-- `undo()`: raise when the log is empty, otherwise roll the live
`ConjunctiveGraph` back past the latest changeset with `_graph_at` and
move that changeset's rows into `redos`.  A `none` from
`version_before` is the unguarded `res[0]` (`TypeError`), which aborts
the transaction with no state change. -/
def undo (s : State) : State × Option Err :=
  match latest_version s with
  | none => (s, some Err.noUndoHistory)
  | some lv =>
    match version_before s lv.ts with
    | none => (s, some Err.noneSubscript)
    | some prev =>
      ({ s with
          live := graph_at_cg s.live s.changesets prev none,
          redos := s.redos ++ s.changesets.filter (fun r => r.id == lv.id),
          changesets := s.changesets.filter (fun r => r.id != lv.id) },
        none)

/-- `redo()`: take the earliest-timestamped redo record, move its rows
back into `changesets`, run `_graph_at` on `self` at that timestamp,
then replay each moved row against `self.get_context(record["graph"])`
(an insertion-flagged row is removed, any other row is added). -/
def redo (s : State) : State × Option Err :=
  match minTsRow s.redos with
  | none => (s, some Err.noRedoHistory)
  | some rr =>
    ({ s with
        changesets := s.changesets ++ s.redos.filter (fun r => r.id == rr.id),
        redos := s.redos.filter (fun r => r.id != rr.id),
        live :=
          (((s.changesets ++ s.redos.filter (fun r => r.id == rr.id)).filter
              (fun r => r.id == rr.id)).foldl
            (fun lv row =>
              if row.isInsertion then ctxRemove rr.graph row.triple lv
              else ctxAdd rr.graph row.triple lv)
            (graph_at_cg s.live
              (s.changesets ++ s.redos.filter (fun r => r.id == rr.id)) rr.ts none)) },
      none)

/-- `versions(graph=None)`: `SELECT DISTINCT id, graph, timestamp FROM
changesets [WHERE graph = :g] ORDER BY timestamp DESC`. -/
def versions (s : State) (g? : Option String) : List (String × String × Ts) :=
  sortTsDesc (fun v => v.2.2)
    ((((match g? with
        | none => s.changesets
        | some g => s.changesets.filter (fun r => r.graph == g) : List Row)).map
      (fun r => (r.id, r.graph, r.ts))).dedup)

/-- `OrderedDict` assignment `d[name] = hook`: an existing key keeps
its position and gets the new value, a fresh key is appended. -/
def addHookNamed (d : List (String × Nat)) (name : String) (i : Nat) :
    List (String × Nat) :=
  if d.any (fun p => p.1 == name) then
    d.map (fun p => if p.1 == name then (name, i) else p)
  else d ++ [(name, i)]

/-- `add_precommit_hook`: register under the hook's `__name__`. -/
def add_precommit_hook (s : State) (name : String) (i : Nat) : State :=
  { s with precommitHooks := addHookNamed s.precommitHooks name i }

/-- `add_postcommit_hook`: register under the hook's `__name__`. -/
def add_postcommit_hook (s : State) (name : String) (i : Nat) : State :=
  { s with postcommitHooks := addHookNamed s.postcommitHooks name i }

/-- `for hook in registry.values(): hook(self)` — hooks run in
registry order; a raising hook (the oracle answers `false` for its id)
stops the loop.  Returns the ids invoked and whether all succeeded. -/
def runHooks : List (String × Nat) → (Nat → Bool) → List Nat × Bool
  | [], _ => ([], true)
  | p :: rest, f =>
    if f p.2 then (p.2 :: (runHooks rest f).1, (runHooks rest f).2)
    else ([p.2], false)

/-- `NamespaceManager.bind` as used here: replace an existing entry
for the same pfx, otherwise append. -/
def bindNs (d : List (String × String)) (pfx uri : String) : List (String × String) :=
  if d.any (fun p => p.1 == pfx) then d.map (fun p => if p.1 == pfx then (pfx, uri) else p)
  else d ++ [(pfx, uri)]

/-- A `Changeset` as observed at scope exit: the ordered pending
additions and deletions (`cs.add` / `cs.remove`) and the namespace
bindings declared on it. -/
structure Cs where
  additions : List Triple
  deletions : List Triple
  namespaces : List (String × String)
deriving DecidableEq

def emptyCs : Cs := ⟨[], [], []⟩

/-- The log rows persisted for one changeset: deletions are stored
first with `is_insertion = True`, additions after them with
`is_insertion = False` (the source saves the backward delta: "we save
the deletions in the changeset as inserts, and the additions as
deletions"). -/
def csRows (cs : Cs) (gn : String) (ts : Ts) (uid : String) : List Row :=
  cs.deletions.map (fun t => ⟨uid, ts, gn, true, t⟩) ++
    cs.additions.map (fun t => ⟨uid, ts, gn, false, t⟩)

/-- The buffered live-graph mutation after the transaction commits:
`graph.remove` for every buffered deletion, then `BatchAddGraph.add`
for every buffered addition, all against context `gn`. -/
def applyCsLive (live : Live) (cs : Cs) (gn : String) : Live :=
  cs.additions.foldl (fun lv t => ctxAdd gn t lv)
    (cs.deletions.foldl (fun lv t => ctxRemove gn t lv) live)

/-- Merge the changeset's namespace bindings into the collection. -/
def mergeNs (d : List (String × String)) (ns : List (String × String)) :
    List (String × String) :=
  ns.foldl (fun acc p => bindNs acc p.1 p.2) d

/-- Outcome of one `new_changeset` scope: the resulting collection
state, the propagated exception if any, and the ids of the pre/post
hooks that were invoked. -/
structure CommitResult where
  state : State
  err : Option Err
  preInvoked : List Nat
  postInvoked : List Nat
deriving DecidableEq

/-- `with collection.new_changeset(graph_name, ts) as cs: body(cs)`.

An exception inside the body propagates at the `yield`, so the
transaction holds no writes to roll back and nothing after the `with`
block runs.  Otherwise the log rows are inserted, the pre-commit hooks
run inside the transaction (a raising hook rolls the inserts back),
and after the transaction commits the buffered deletions/additions are
applied to the named context, namespaces are merged, the post-commit
hooks run, and finally `_latest_version` is set. -/
def new_changeset (s : State) (graph_name : String) (ts : Ts) (uid : String)
    (body : Cs → Except Unit Cs) (oracle : Nat → Bool) : CommitResult :=
  match body emptyCs with
  | Except.error _ => ⟨s, some Err.bodyException, [], []⟩
  | Except.ok cs =>
    if (runHooks s.precommitHooks oracle).2 then
      if (runHooks s.postcommitHooks oracle).2 then
        ⟨{ s with
            changesets := s.changesets ++ csRows cs graph_name ts uid,
            live := applyCsLive s.live cs graph_name,
            namespaces := mergeNs s.namespaces cs.namespaces,
            latestTsField := some ts },
          none, (runHooks s.precommitHooks oracle).1,
          (runHooks s.postcommitHooks oracle).1⟩
      else
        ⟨{ s with
            changesets := s.changesets ++ csRows cs graph_name ts uid,
            live := applyCsLive s.live cs graph_name,
            namespaces := mergeNs s.namespaces cs.namespaces },
          some Err.postHookError, (runHooks s.precommitHooks oracle).1,
          (runHooks s.postcommitHooks oracle).1⟩
    else ⟨s, some Err.preHookError, (runHooks s.precommitHooks oracle).1, []⟩

/-- Copy of the union of all contexts (`for t in self.triples(...)`
into a fresh `Graph`). -/
def unionCopy (live : Live) : List Triple :=
  live.foldl (fun acc p => setAdd p.2 acc) []

/-- Copy of one named context (`self.get_context(graph).triples`). -/
def contextCopy (live : Live) (g : String) : List Triple :=
  (live.filter (fun p => p.1 == g)).foldl (fun acc p => setAdd p.2 acc) []

/-- `graph_at(timestamp, graph)`: copy the current live triples (one
context, or the union of all) into a fresh graph and run `_graph_at`
on the copy. -/
def graph_at (s : State) (t : Ts) (g? : Option String) : List Triple :=
  match g? with
  | some g => graph_at_plain (contextCopy s.live g) s.changesets t (some g)
  | none => graph_at_plain (unionCopy s.live) s.changesets t none

/-- One committed changeset of a driver scenario: graph name,
timestamp, fresh uuid, the triples the body adds and removes. -/
structure CommitOp where
  gn : String
  ts : Ts
  uid : String
  adds : List Triple
  dels : List Triple
deriving DecidableEq

/-- Run one `new_changeset` scope whose body performs exactly the
given additions and deletions and raises nothing. -/
def doCommit (s : State) (op : CommitOp) : State :=
  (new_changeset s op.gn op.ts op.uid
    (fun _ => Except.ok ⟨op.adds, op.dels, []⟩) (fun _ => true)).state

def applyCommits (s : State) (ops : List CommitOp) : State :=
  ops.foldl doCommit s

/-- Iterated `undo()`; `none` as soon as one call raises. -/
def undoN : Nat → State → Option State
  | 0, s => some s
  | n + 1, s =>
    match undo s with
    | (s', none) => undoN n s'
    | (_, some _) => none

/-- The rows one commit appends to the `changesets` table. -/
def blockRows (op : CommitOp) : List Row :=
  csRows ⟨op.adds, op.dels, []⟩ op.gn op.ts op.uid

def rowsOf : List CommitOp → List Row
  | [] => []
  | op :: rest => blockRows op ++ rowsOf rest

/-- The operation a log row records, at the user level. -/
inductive UserOp where
  | insertion
  | deletion
deriving DecidableEq

/-- A user-level log event: what happened, when, in which graph. -/
structure SpecEvent where
  op : UserOp
  ts : Ts
  graph : String
  triple : Triple
  uid : String
deriving DecidableEq

/-- How `new_changeset` encodes a user-level event as a table row: a
recorded insertion is stored with `is_insertion = False` and a
recorded deletion with `is_insertion = True` (the backward delta). -/
def encodeRow (e : SpecEvent) : Row :=
  ⟨e.uid, e.ts, e.graph,
    (match e.op with | UserOp.deletion => true | UserOp.insertion => false),
    e.triple⟩

/-- Modelled from the spec's words for `reconstruct` (§4.3): fetch all
log rows with timestamp strictly greater than `t` (optionally filtered
to one graph), ordered descending by timestamp; a row recording an
insertion has its triple removed from the working copy, a row
recording a deletion has its triple added back; the mutated copy is
returned. -/
def reconstruct_spec (copy : List Triple) (events : List SpecEvent) (t : Ts)
    (g? : Option String) : List Triple :=
  (sortTsDesc (fun e => e.ts)
    (events.filter (fun e => graphMatches g? e.graph && decide (t < e.ts)))).foldl
    (fun acc e =>
      match e.op with
      | UserOp.insertion => acc.filter (fun x => x != e.triple)
      | UserOp.deletion => setAdd e.triple acc)
    copy

/-- All hooks succeeding: the whole registry is traversed in order. -/
theorem runHooks_true (l : List (String × Nat)) :
    runHooks l (fun _ => true) = (l.map (fun p => p.2), true) := by
  induction l with
  | nil => rfl
  | cons p rest ih => simp [runHooks, ih]

/-- Scenario for C1: commit a triple into graph `g`, then commit its
deletion from `g`; the collection now holds no triple. -/
def c1PreState : State :=
  applyCommits freshState
    [⟨"g", 1, "c1", [("s", "p", "o")], []⟩, ⟨"g", 2, "c2", [], [("s", "p", "o")]⟩]

/-- C1: refuted on the code.  With the latest changeset containing a
deletion, `undo()` re-adds the deleted triple via
`ConjunctiveGraph.add`, which lands in the default context rather than
graph `g`; the subsequent `redo()` removes the triple from context `g`
only, missing it.  Both calls succeed, yet the post-redo live state
holds one triple (in the default context) while the pre-undo state
held none, so undo-then-redo is not an exact inverse. -/
theorem c1_undo_redo_not_inverse :
    (undo c1PreState).2 = none ∧
    (redo (undo c1PreState).1).2 = none ∧
    c1PreState.live = [] ∧
    (redo (undo c1PreState).1).1.live = [(defaultContext, ("s", "p", "o"))] ∧
    (redo (undo c1PreState).1).1.live ≠ c1PreState.live := by
  refine ⟨by decide, by decide, by decide, by decide, by decide⟩

/-- Scenario for C3: two single-addition changesets on a fresh
collection (the spec's Scenario A). -/
def c3State : State :=
  applyCommits freshState
    [⟨"g", 1, "ca", [("a", "p", "o")], []⟩, ⟨"g", 2, "cb", [("b", "p", "o")], []⟩]

/-- C3: refuted on the code.  The first `undo()` succeeds and leaves
one triple, but the second `undo()` reaches `version_before`, whose
`fetchone()` finds no row with a strictly earlier timestamp and
returns `None`; the unguarded `res[0]` raises a `TypeError` instead of
undoing to 0 triples, so the claimed `undo(); undo()` → 0 triples /
third-undo-`NoHistoryError` behaviour never happens. -/
theorem c3_second_undo_crashes :
    (undo c3State).2 = none ∧
    (undo c3State).1.live = [("g", ("a", "p", "o"))] ∧
    (undo (undo c3State).1).2 = some Err.noneSubscript ∧
    (undo (undo c3State).1).1.live ≠ [] := by
  refine ⟨by decide, by decide, by decide, by decide⟩

/-- C4: `undo()` on an empty active log and `redo()` on an empty redo
log each raise their distinct empty-history error and leave the whole
collection state (live graphs and both log tables) untouched. -/
theorem c4_empty_history_errors (s : State) :
    (s.changesets = [] → undo s = (s, some Err.noUndoHistory)) ∧
    (s.redos = [] → redo s = (s, some Err.noRedoHistory)) := by
  constructor
  · intro h
    simp [undo, latest_version, maxTsRow, h, maxTsRowAux]
  · intro h
    simp [redo, minTsRow, h, minTsRowAux]

/-- Witness for C4 at the fresh collection. -/
theorem c4_witness :
    undo freshState = (freshState, some Err.noUndoHistory) ∧
    redo freshState = (freshState, some Err.noRedoHistory) :=
  ⟨(c4_empty_history_errors freshState).1 rfl,
    (c4_empty_history_errors freshState).2 rfl⟩

/-- C5: an exception raised by the caller's code inside a
`new_changeset` scope aborts the changeset entirely: no log row is
written, the live graph is untouched and no namespace binding is
merged; the exception propagates. -/
theorem c5_body_exception_aborts (s : State) (gn : String) (ts : Ts) (uid : String)
    (body : Cs → Except Unit Cs) (oracle : Nat → Bool)
    (h : body emptyCs = Except.error ()) :
    (new_changeset s gn ts uid body oracle).state.changesets = s.changesets ∧
    (new_changeset s gn ts uid body oracle).state.live = s.live ∧
    (new_changeset s gn ts uid body oracle).state.namespaces = s.namespaces ∧
    (new_changeset s gn ts uid body oracle).err = some Err.bodyException := by
  simp [new_changeset, h]

/-- Witness for C5: a body that raises at once, on the fresh state. -/
theorem c5_witness :
    (new_changeset freshState "g" 1 "u" (fun _ => Except.error ())
        (fun _ => true)).state.changesets = freshState.changesets ∧
    (new_changeset freshState "g" 1 "u" (fun _ => Except.error ())
        (fun _ => true)).state.live = freshState.live ∧
    (new_changeset freshState "g" 1 "u" (fun _ => Except.error ())
        (fun _ => true)).state.namespaces = freshState.namespaces ∧
    (new_changeset freshState "g" 1 "u" (fun _ => Except.error ())
        (fun _ => true)).err = some Err.bodyException :=
  c5_body_exception_aborts freshState "g" 1 "u" (fun _ => Except.error ())
    (fun _ => true) rfl

/-- C6: a raising pre-commit hook rolls the transaction back — the
result state is the old state (no row for the fresh changeset id, live
graph unchanged) and the error propagates; a raising post-commit hook
leaves the already-applied commit in place — the log rows and the live
graph equal those of a fully successful commit, only the error
propagates. -/
theorem c6_hook_failure_semantics (s : State) (gn : String) (ts : Ts) (uid : String)
    (body : Cs → Except Unit Cs) (cs : Cs)
    (hbody : body emptyCs = Except.ok cs)
    (huid : ∀ r ∈ s.changesets, r.id ≠ uid) :
    (∀ oracle : Nat → Bool, (runHooks s.precommitHooks oracle).2 = false →
      (new_changeset s gn ts uid body oracle).state = s ∧
      (∀ r ∈ (new_changeset s gn ts uid body oracle).state.changesets, r.id ≠ uid) ∧
      (new_changeset s gn ts uid body oracle).err = some Err.preHookError) ∧
    (∀ oracle : Nat → Bool, (runHooks s.precommitHooks oracle).2 = true →
      (runHooks s.postcommitHooks oracle).2 = false →
      (new_changeset s gn ts uid body oracle).state.changesets
        = (new_changeset s gn ts uid body (fun _ => true)).state.changesets ∧
      (new_changeset s gn ts uid body oracle).state.live
        = (new_changeset s gn ts uid body (fun _ => true)).state.live ∧
      (new_changeset s gn ts uid body oracle).err = some Err.postHookError) := by
  constructor
  · intro oracle hpre
    refine ⟨?_, ?_, ?_⟩ <;> simp [new_changeset, hbody, hpre]
    exact huid
  · intro oracle hpre hpost
    refine ⟨?_, ?_, ?_⟩ <;> simp [new_changeset, hbody, hpre, hpost, runHooks_true]

/-- Collection with one pre-commit hook (id 5) and one post-commit
hook (id 7) registered. -/
def c6State : State :=
  { freshState with precommitHooks := [("h", 5)], postcommitHooks := [("k", 7)] }

/-- Witness for C6: a failing pre-commit hook aborts with the state
unchanged; a failing post-commit hook keeps the commit. -/
theorem c6_witness :
    (new_changeset c6State "g" 1 "u" (fun c => Except.ok c)
        (fun i => i != 5)).state = c6State ∧
    (new_changeset c6State "g" 1 "u" (fun c => Except.ok c)
        (fun i => i != 5)).err = some Err.preHookError ∧
    (new_changeset c6State "g" 1 "u" (fun c => Except.ok c)
        (fun i => i != 7)).state.changesets
      = (new_changeset c6State "g" 1 "u" (fun c => Except.ok c)
        (fun _ => true)).state.changesets ∧
    (new_changeset c6State "g" 1 "u" (fun c => Except.ok c)
        (fun i => i != 7)).err = some Err.postHookError := by
  have h := c6_hook_failure_semantics c6State "g" 1 "u" (fun c => Except.ok c)
    emptyCs rfl (by decide)
  exact ⟨(h.1 (fun i => i != 5) (by decide)).1,
    (h.1 (fun i => i != 5) (by decide)).2.2,
    (h.2 (fun i => i != 7) (by decide) (by decide)).1,
    (h.2 (fun i => i != 7) (by decide) (by decide)).2.2⟩

/-- C10: `version_before` has no `None` guard; whenever the active log
is non-empty but no row has a timestamp strictly below the latest one
(i.e. the only remaining changeset is the earliest ever committed),
`undo()` reaches the unguarded subscript (a `TypeError`), not the
`NoHistoryError` path, and the transaction rolls back unchanged. -/
theorem c10_version_before_unguarded (s : State) (lv : Row)
    (h₁ : latest_version s = some lv)
    (h₂ : ∀ r ∈ s.changesets, ¬ r.ts < lv.ts) :
    version_before s lv.ts = none ∧ undo s = (s, some Err.noneSubscript) := by
  have hf : s.changesets.filter (fun r => decide (r.ts < lv.ts)) = [] := by
    apply List.filter_eq_nil_iff.mpr
    intro r hr
    simpa using h₂ r hr
  have hvb : version_before s lv.ts = none := by
    simp [version_before, hf, maxTsRow, maxTsRowAux]
  exact ⟨hvb, by simp [undo, h₁, hvb]⟩

/-- Collection holding exactly one committed changeset. -/
def c10State : State :=
  applyCommits freshState [⟨"g", 1, "c1", [("s", "p", "o")], []⟩]

/-- Witness for C10: with a single committed changeset, `undo()` hits
the unguarded subscript. -/
theorem c10_witness :
    version_before c10State 1 = none ∧
    undo c10State = (c10State, some Err.noneSubscript) := by
  have h := c10_version_before_unguarded c10State
    ⟨"c1", 1, "g", false, ("s", "p", "o")⟩ (by decide) (by decide)
  exact h

/-- Accumulator bound for the `ORDER BY timestamp DESC LIMIT 1` scan. -/
theorem maxAux_acc_le (l : List Row) :
    ∀ (m lv : Row), maxTsRowAux (some m) l = some lv → m.ts ≤ lv.ts := by
  induction l with
  | nil =>
    intro m lv h
    simp only [maxTsRowAux] at h
    cases h
    exact le_refl _
  | cons r rest ih =>
    intro m lv h
    simp only [maxTsRowAux] at h
    by_cases hc : m.ts < r.ts
    · rw [if_pos hc] at h
      exact le_trans (le_of_lt hc) (ih r lv h)
    · rw [if_neg hc] at h
      exact ih m lv h

/-- The row selected by the scan bounds every scanned timestamp. -/
theorem maxAux_ub (l : List Row) :
    ∀ (acc : Option Row) (lv : Row), maxTsRowAux acc l = some lv →
      ∀ r ∈ l, r.ts ≤ lv.ts := by
  induction l with
  | nil =>
    intro acc lv _ r hr
    cases hr
  | cons x rest ih =>
    intro acc lv h r hr
    rcases List.mem_cons.mp hr with rfl | hr'
    · cases acc with
      | none =>
        simp only [maxTsRowAux] at h
        exact maxAux_acc_le rest r lv h
      | some m =>
        simp only [maxTsRowAux] at h
        by_cases hc : m.ts < r.ts
        · rw [if_pos hc] at h
          exact maxAux_acc_le rest r lv h
        · rw [if_neg hc] at h
          exact le_trans (not_lt.mp hc) (maxAux_acc_le rest m lv h)
    · cases acc with
      | none =>
        simp only [maxTsRowAux] at h
        exact ih (some x) lv h r hr'
      | some m =>
        simp only [maxTsRowAux] at h
        exact ih _ lv h r hr'

/-- `latest_version` carries the maximum timestamp of the active log. -/
theorem latest_version_ub (s : State) (lv : Row) (h : latest_version s = some lv) :
    ∀ r ∈ s.changesets, r.ts ≤ lv.ts :=
  maxAux_ub s.changesets none lv h

/-- No log row is strictly newer than the latest version, so the
`_graph_at` selection at the latest timestamp is empty. -/
theorem rowsSince_latest_nil (s : State) (lv : Row) (h : latest_version s = some lv) :
    rowsSince s.changesets lv.ts none = [] := by
  unfold rowsSince
  have hf : s.changesets.filter
      (fun r => graphMatches none r.graph && decide (lv.ts < r.ts)) = [] := by
    apply List.filter_eq_nil_iff.mpr
    intro r hr
    have hle := latest_version_ub s lv h r hr
    simpa [graphMatches] using hle
  rw [hf]
  rfl

/-- Membership through `setAdd`. -/
theorem mem_setAdd {α : Type} [DecidableEq α] (x y : α) (l : List α) :
    y ∈ setAdd x l ↔ y = x ∨ y ∈ l := by
  unfold setAdd
  by_cases h : x ∈ l
  · rw [if_pos h]
    constructor
    · exact Or.inr
    · rintro (rfl | hy)
      · exact h
      · exact hy
  · rw [if_neg h]
    simp [List.mem_append, or_comm]

/-- Membership in the union copy taken by `graph_at`. -/
theorem mem_unionCopy (live : Live) (t : Triple) :
    t ∈ unionCopy live ↔ ∃ g, (g, t) ∈ live := by
  have gen : ∀ (l : Live) (init : List Triple),
      t ∈ l.foldl (fun acc p => setAdd p.2 acc) init ↔
        t ∈ init ∨ ∃ g, (g, t) ∈ l := by
    intro l
    induction l with
    | nil => simp
    | cons p rest ih =>
      intro init
      simp only [List.foldl_cons]
      rw [ih, mem_setAdd]
      constructor
      · rintro ((rfl | hinit) | ⟨g, hg⟩)
        · exact Or.inr ⟨p.1, by simp [List.mem_cons]⟩
        · exact Or.inl hinit
        · exact Or.inr ⟨g, List.mem_cons_of_mem _ hg⟩
      · rintro (hinit | ⟨g, hg⟩)
        · exact Or.inl (Or.inr hinit)
        · rcases List.mem_cons.mp hg with heq | hg'
          · exact Or.inl (Or.inl (by rw [← heq]))
          · exact Or.inr ⟨g, hg'⟩
  simpa using gen live []

/-- At the latest version's timestamp, `graph_at` returns exactly the
union of the live contexts. -/
theorem graph_at_latest (s : State) (lv : Row) (h : latest_version s = some lv) :
    ∀ t : Triple, t ∈ graph_at s lv.ts none ↔ ∃ g, (g, t) ∈ s.live := by
  intro t
  show t ∈ graph_at_plain (unionCopy s.live) s.changesets lv.ts none ↔ _
  unfold graph_at_plain
  rw [rowsSince_latest_nil s lv h]
  simpa using mem_unionCopy s.live t

/-- C2: for any sequence of commits on a fresh collection, `graph_at`
at the latest version's timestamp yields exactly the live collection's
current triples (the union over all named graphs). -/
theorem c2_graph_at_roundtrip (ops : List CommitOp) (lv : Row)
    (h : latest_version (applyCommits freshState ops) = some lv) :
    ∀ t : Triple, t ∈ graph_at (applyCommits freshState ops) lv.ts none ↔
      ∃ g, (g, t) ∈ (applyCommits freshState ops).live :=
  graph_at_latest (applyCommits freshState ops) lv h

/-- Witness for C2 on a one-commit history. -/
theorem c2_witness :
    latest_version (applyCommits freshState [⟨"g", 1, "c1", [("a", "p", "o")], []⟩])
      = some ⟨"c1", 1, "g", false, ("a", "p", "o")⟩ ∧
    (∀ t : Triple,
      t ∈ graph_at (applyCommits freshState [⟨"g", 1, "c1", [("a", "p", "o")], []⟩])
          1 none ↔
        ∃ g, (g, t) ∈ (applyCommits freshState
          [⟨"g", 1, "c1", [("a", "p", "o")], []⟩]).live) :=
  ⟨by decide,
    c2_graph_at_roundtrip [⟨"g", 1, "c1", [("a", "p", "o")], []⟩]
      ⟨"c1", 1, "g", false, ("a", "p", "o")⟩ (by decide)⟩

/-- Filtering commutes with the row encoding. -/
theorem filter_map_encode (P : Row → Bool) (events : List SpecEvent) :
    (events.map encodeRow).filter P
      = (events.filter (fun e => P (encodeRow e))).map encodeRow := by
  induction events with
  | nil => rfl
  | cons e rest ih =>
    by_cases h : P (encodeRow e) <;> simp [List.filter_cons, h, ih]

/-- Sorted insertion commutes with the row encoding (the encoding
preserves timestamps). -/
theorem insert_map_encode (e : SpecEvent) (acc : List SpecEvent) :
    insertTsDesc (fun r => r.ts) (encodeRow e) (acc.map encodeRow)
      = (insertTsDesc (fun x => x.ts) e acc).map encodeRow := by
  induction acc with
  | nil => rfl
  | cons a rest ih =>
    have hts : ∀ x : SpecEvent, (encodeRow x).ts = x.ts := fun _ => rfl
    simp only [List.map_cons, insertTsDesc, hts]
    by_cases h : e.ts ≤ a.ts
    · simp [h, ih]
    · simp [h]

/-- The descending sort commutes with the row encoding. -/
theorem sort_map_encode (l : List SpecEvent) :
    sortTsDesc (fun r => r.ts) (l.map encodeRow)
      = (sortTsDesc (fun e => e.ts) l).map encodeRow := by
  have gen : ∀ (l : List SpecEvent) (acc : List SpecEvent),
      (l.map encodeRow).foldl
          (fun a r => insertTsDesc (fun x => x.ts) r a) (acc.map encodeRow)
        = (l.foldl (fun a e => insertTsDesc (fun x => x.ts) e a) acc).map encodeRow := by
    intro l
    induction l with
    | nil => intro acc; rfl
    | cons e rest ih =>
      intro acc
      simp only [List.map_cons, List.foldl_cons]
      rw [insert_map_encode, ih]
  have h0 := gen l []
  simpa [sortTsDesc] using h0

/-- C7: the shared reconstruction routine `_graph_at`, run over the
rows that `new_changeset` writes for a sequence of user-level events,
coincides with the spec's description of `reconstruct`: it processes
exactly the rows newer than the target timestamp (filtered to the
graph when given) in descending timestamp order, removing the triple
of every row recording an insertion and re-adding the triple of every
row recording a deletion, and returns the mutated copy. -/
theorem c7_reconstruct_refines_spec (copy : List Triple) (events : List SpecEvent)
    (t : Ts) (g? : Option String) :
    graph_at_plain copy (events.map encodeRow) t g?
      = reconstruct_spec copy events t g? := by
  unfold graph_at_plain reconstruct_spec rowsSince
  rw [show (fun (r : Row) => graphMatches g? r.graph && decide (t < r.ts))
      = (fun r => (fun e => graphMatches g? e.graph && decide (t < e.ts)) r) from rfl]
  rw [filter_map_encode (fun r => graphMatches g? r.graph && decide (t < r.ts)) events]
  rw [show (fun (e : SpecEvent) =>
        graphMatches g? (encodeRow e).graph && decide (t < (encodeRow e).ts))
      = (fun e => graphMatches g? e.graph && decide (t < e.ts)) from rfl]
  rw [sort_map_encode]
  rw [List.foldl_map]
  have hfun : (fun (acc : List Triple) (e : SpecEvent) =>
      if (encodeRow e).isInsertion then setAdd (encodeRow e).triple acc
      else acc.filter (fun x => x != (encodeRow e).triple))
    = (fun acc e =>
      match e.op with
      | UserOp.insertion => acc.filter (fun x => x != e.triple)
      | UserOp.deletion => setAdd e.triple acc) := by
    funext acc e
    cases e with
    | mk op ts g tr u => cases op <;> simp [encodeRow]
  rw [hfun]

/-- Mapping a function that fixes every element is the identity. -/
theorem map_id_of {α : Type} (f : α → α) :
    ∀ (l : List α), (∀ a ∈ l, f a = a) → l.map f = l
  | [], _ => rfl
  | a :: rest, h => by
    rw [List.map_cons, h a (List.mem_cons_self a rest),
      map_id_of f rest (fun b hb => h b (List.mem_cons_of_mem a hb))]

/-- A false `any` gives a pointwise-false predicate. -/
theorem any_false_forall {α : Type} (l : List α) (f : α → Bool)
    (h : ¬ l.any f = true) : ∀ x ∈ l, f x = false := by
  intro x hx
  rcases Bool.eq_false_or_eq_true (f x) with hf | hf
  · exact absurd (List.any_eq_true.mpr ⟨x, hx, hf⟩) h
  · exact hf

/-- `OrderedDict` assignment walks past entries with a different key. -/
theorem ins_cons_ne (p : String × Nat) (rest : List (String × Nat))
    (name : String) (i : Nat) (hp : (p.1 == name) = false) :
    addHookNamed (p :: rest) name i = p :: addHookNamed rest name i := by
  have hf : (if p.1 == name then (name, i) else p) = p := by
    simp [hp]
  simp only [addHookNamed, List.any_cons, hp, Bool.false_or]
  by_cases h : rest.any (fun q => q.1 == name) = true
  · rw [if_pos h, if_pos h, List.map_cons, hf]
  · rw [if_neg h, if_neg h]
    rfl

/-- Re-assigning the same key twice is the same as assigning once:
`d[k] = v1; d[k] = v2` equals `d[k] = v2`. -/
theorem ins_ins (d : List (String × Nat)) (n : String) (i₁ i₂ : Nat) :
    addHookNamed (addHookNamed d n i₁) n i₂ = addHookNamed d n i₂ := by
  by_cases h : d.any (fun p => p.1 == n) = true
  · have h1 : addHookNamed d n i₁ = d.map (fun p => if p.1 == n then (n, i₁) else p) := by
      simp [addHookNamed, h]
    have hcomp : ((fun (p : String × Nat) => p.1 == n) ∘
        (fun p => if p.1 == n then (n, i₁) else p)) = fun p => p.1 == n := by
      funext q
      by_cases hq : (q.1 == n) = true <;> simp [Function.comp, hq]
    have hkeys : (d.map (fun p => if p.1 == n then (n, i₁) else p)).any
        (fun p => p.1 == n) = true := by
      rw [List.any_map, hcomp]
      exact h
    rw [h1]
    simp only [addHookNamed, hkeys, if_true, h, List.map_map]
    apply List.map_congr_left
    intro q _
    by_cases hq : (q.1 == n) = true <;> simp [Function.comp, hq]
  · have h1 : addHookNamed d n i₁ = d ++ [(n, i₁)] := by
      simp [addHookNamed, h]
    have h2 : (d ++ [(n, i₁)]).any (fun p => p.1 == n) = true := by
      rw [List.any_append]
      simp
    have h3 := any_false_forall d (fun p => p.1 == n) h
    rw [h1]
    simp only [addHookNamed, h2, if_true, h]
    rw [List.map_append]
    rw [map_id_of _ d (fun q hq => by simp [h3 q hq])]
    simp [if_neg h]

/-- After assigning value `i` under key `n` into a registry with
no-duplicate keys and no prior occurrence of `i` among the values, `i`
occurs exactly once among the values. -/
theorem ins_count (n : String) (i : Nat) :
    ∀ (d : List (String × Nat)), (d.map (fun p => p.1)).Nodup →
      i ∉ d.map (fun p => p.2) →
      ((addHookNamed d n i).map (fun p => p.2)).count i = 1 := by
  intro d
  induction d with
  | nil => intro _ _; simp [addHookNamed]
  | cons p rest ih =>
    intro hkeys hv
    have hnd : p.1 ∉ rest.map (fun q => q.1) ∧ (rest.map (fun q => q.1)).Nodup := by
      rw [List.map_cons, List.nodup_cons] at hkeys
      exact hkeys
    have hvp : p.2 ≠ i := by
      intro he
      exact hv (by rw [← he]; exact List.mem_map_of_mem _ (List.mem_cons_self p rest))
    have hvrest : i ∉ rest.map (fun q => q.2) := by
      intro hmem
      exact hv (by rw [List.map_cons]; exact List.mem_cons_of_mem _ hmem)
    rcases Bool.eq_false_or_eq_true (p.1 == n) with hp | hp
    · have hpn : p.1 = n := by simpa using hp
      have hkn : ∀ q ∈ rest, (q.1 == n) = false := by
        intro q hq
        have hq1 : q.1 ≠ n := by
          intro he
          exact hnd.1 (by rw [hpn, ← he]; exact List.mem_map_of_mem _ hq)
        simpa using hq1
      have hunfold : addHookNamed (p :: rest) n i = (n, i) :: rest := by
        have hany : (p :: rest).any (fun q => q.1 == n) = true := by
          simp [List.any_cons, hp]
        simp only [addHookNamed, hany, if_true, List.map_cons, hp, if_true]
        rw [map_id_of _ rest (fun q hq => by simp [hkn q hq])]
      rw [hunfold, List.map_cons, List.count_cons]
      have h0 : (rest.map (fun q => q.2)).count i = 0 :=
        List.count_eq_zero.mpr hvrest
      simp [h0]
    · rw [ins_cons_ne p rest n i hp, List.map_cons, List.count_cons]
      rw [ih hnd.2 hvrest]
      simp [hvp]

/-- Every value after an assignment is either an old value or the
newly assigned one. -/
theorem ins_values_mem (d : List (String × Nat)) (n : String) (i x : Nat)
    (hx : x ∈ (addHookNamed d n i).map (fun p => p.2)) :
    x ∈ d.map (fun p => p.2) ∨ x = i := by
  unfold addHookNamed at hx
  by_cases h : d.any (fun p => p.1 == n) = true
  · rw [if_pos h] at hx
    rw [List.map_map] at hx
    rcases List.mem_map.mp hx with ⟨q, hq, hqx⟩
    by_cases hq1 : (q.1 == n) = true
    · right
      rw [← hqx]
      simp [Function.comp, hq1]
    · left
      rw [← hqx]
      simp only [Function.comp]
      rw [if_neg hq1]
      exact List.mem_map_of_mem _ hq
  · rw [if_neg h, List.map_append] at hx
    rcases List.mem_append.mp hx with hx1 | hx2
    · exact Or.inl hx1
    · right
      simpa using hx2

/-- C9: registering two hooks under the same name (pre-commit via
`add_precommit_hook`, post-commit via `add_postcommit_hook`) keeps
only the second: during a subsequent commit the most recently
registered hook of that name is invoked exactly once and the earlier
one is never invoked — hooks are keyed, not accumulated. -/
theorem c9_hook_replacement (s : State) (n m : String) (i₁ i₂ j₁ j₂ : Nat)
    (gn : String) (ts : Ts) (uid : String) (body : Cs → Except Unit Cs) (cs : Cs)
    (hbody : body emptyCs = Except.ok cs)
    (hprekeys : (s.precommitHooks.map (fun p => p.1)).Nodup)
    (hpostkeys : (s.postcommitHooks.map (fun p => p.1)).Nodup)
    (hi₁ : i₁ ∉ s.precommitHooks.map (fun p => p.2))
    (hi₂ : i₂ ∉ s.precommitHooks.map (fun p => p.2))
    (hii : i₁ ≠ i₂)
    (hj₁ : j₁ ∉ s.postcommitHooks.map (fun p => p.2))
    (hj₂ : j₂ ∉ s.postcommitHooks.map (fun p => p.2))
    (hjj : j₁ ≠ j₂) :
    ((new_changeset (add_postcommit_hook (add_postcommit_hook
        (add_precommit_hook (add_precommit_hook s n i₁) n i₂) m j₁) m j₂)
        gn ts uid body (fun _ => true)).preInvoked.count i₂ = 1) ∧
    (i₁ ∉ (new_changeset (add_postcommit_hook (add_postcommit_hook
        (add_precommit_hook (add_precommit_hook s n i₁) n i₂) m j₁) m j₂)
        gn ts uid body (fun _ => true)).preInvoked) ∧
    ((new_changeset (add_postcommit_hook (add_postcommit_hook
        (add_precommit_hook (add_precommit_hook s n i₁) n i₂) m j₁) m j₂)
        gn ts uid body (fun _ => true)).postInvoked.count j₂ = 1) ∧
    (j₁ ∉ (new_changeset (add_postcommit_hook (add_postcommit_hook
        (add_precommit_hook (add_precommit_hook s n i₁) n i₂) m j₁) m j₂)
        gn ts uid body (fun _ => true)).postInvoked) := by
  have hpre : (add_postcommit_hook (add_postcommit_hook
      (add_precommit_hook (add_precommit_hook s n i₁) n i₂) m j₁) m j₂).precommitHooks
      = addHookNamed s.precommitHooks n i₂ := by
    simp [add_postcommit_hook, add_precommit_hook, ins_ins]
  have hpost : (add_postcommit_hook (add_postcommit_hook
      (add_precommit_hook (add_precommit_hook s n i₁) n i₂) m j₁) m j₂).postcommitHooks
      = addHookNamed s.postcommitHooks m j₂ := by
    simp [add_postcommit_hook, add_precommit_hook, ins_ins]
  have hrun : ∀ (l : List (String × Nat)),
      (runHooks l (fun _ => true)).1 = l.map (fun p => p.2) := by
    intro l
    rw [runHooks_true]
  refine ⟨?_, ?_, ?_, ?_⟩
  · show (new_changeset _ gn ts uid body (fun _ => true)).preInvoked.count i₂ = 1
    simp only [new_changeset, hbody, runHooks_true, hpre, hpost]
    exact ins_count n i₂ s.precommitHooks hprekeys hi₂
  · simp only [new_changeset, hbody, runHooks_true, hpre, hpost]
    intro hmem
    rcases ins_values_mem s.precommitHooks n i₂ i₁ hmem with hold | heq
    · exact hi₁ hold
    · exact hii heq
  · simp only [new_changeset, hbody, runHooks_true, hpre, hpost]
    exact ins_count m j₂ s.postcommitHooks hpostkeys hj₂
  · simp only [new_changeset, hbody, runHooks_true, hpre, hpost]
    intro hmem
    rcases ins_values_mem s.postcommitHooks m j₂ j₁ hmem with hold | heq
    · exact hj₁ hold
    · exact hjj heq

/-- Witness for C9: on the fresh collection, register ids 1 then 2
under pre-commit name "h" and ids 3 then 4 under post-commit name "k",
then commit. -/
theorem c9_witness :
    ((new_changeset (add_postcommit_hook (add_postcommit_hook
        (add_precommit_hook (add_precommit_hook freshState "h" 1) "h" 2) "k" 3) "k" 4)
        "g" 1 "u" (fun c => Except.ok c) (fun _ => true)).preInvoked.count 2 = 1) ∧
    (1 ∉ (new_changeset (add_postcommit_hook (add_postcommit_hook
        (add_precommit_hook (add_precommit_hook freshState "h" 1) "h" 2) "k" 3) "k" 4)
        "g" 1 "u" (fun c => Except.ok c) (fun _ => true)).preInvoked) ∧
    ((new_changeset (add_postcommit_hook (add_postcommit_hook
        (add_precommit_hook (add_precommit_hook freshState "h" 1) "h" 2) "k" 3) "k" 4)
        "g" 1 "u" (fun c => Except.ok c) (fun _ => true)).postInvoked.count 4 = 1) ∧
    (3 ∉ (new_changeset (add_postcommit_hook (add_postcommit_hook
        (add_precommit_hook (add_precommit_hook freshState "h" 1) "h" 2) "k" 3) "k" 4)
        "g" 1 "u" (fun c => Except.ok c) (fun _ => true)).postInvoked) :=
  c9_hook_replacement freshState "h" "k" 1 2 3 4 "g" 1 "u" (fun c => Except.ok c)
    emptyCs rfl (by decide) (by decide) (by decide) (by decide) (by decide)
    (by decide) (by decide) (by decide)

/-- The `LIMIT 1` scan splits over concatenation. -/
theorem maxAux_append (A B : List Row) :
    ∀ acc, maxTsRowAux acc (A ++ B) = maxTsRowAux (maxTsRowAux acc A) B := by
  induction A with
  | nil => intro acc; cases acc <;> rfl
  | cons r rest ih =>
    intro acc
    cases acc with
    | none => simp only [List.cons_append, maxTsRowAux]; exact ih _
    | some m => simp only [List.cons_append, maxTsRowAux]; exact ih _

/-- An accumulator at least as new as everything scanned survives. -/
theorem maxAux_const (m : Row) :
    ∀ (l : List Row), (∀ r ∈ l, r.ts ≤ m.ts) → maxTsRowAux (some m) l = some m := by
  intro l
  induction l with
  | nil => intro _; rfl
  | cons r rest ih =>
    intro h
    have hr : ¬ m.ts < r.ts := not_lt.mpr (h r (List.mem_cons_self r rest))
    simp only [maxTsRowAux, if_neg hr]
    exact ih (fun q hq => h q (List.mem_cons_of_mem r hq))

/-- The scan's result comes from the list or from the accumulator. -/
theorem maxAux_mem :
    ∀ (l : List Row) (acc : Option Row) (lv : Row),
      maxTsRowAux acc l = some lv → lv ∈ l ∨ acc = some lv := by
  intro l
  induction l with
  | nil =>
    intro acc lv h
    cases acc with
    | none => simp [maxTsRowAux] at h
    | some m => exact Or.inr h
  | cons r rest ih =>
    intro acc lv h
    cases acc with
    | none =>
      simp only [maxTsRowAux] at h
      rcases ih (some r) lv h with hm | he
      · exact Or.inl (List.mem_cons_of_mem r hm)
      · cases he
        exact Or.inl (List.mem_cons_self r rest)
    | some m =>
      simp only [maxTsRowAux] at h
      by_cases hc : m.ts < r.ts
      · rw [if_pos hc] at h
        rcases ih (some r) lv h with hm | he
        · exact Or.inl (List.mem_cons_of_mem r hm)
        · cases he
          exact Or.inl (List.mem_cons_self r rest)
      · rw [if_neg hc] at h
        rcases ih (some m) lv h with hm | he
        · exact Or.inl (List.mem_cons_of_mem r hm)
        · exact Or.inr he

/-- A scan seeded with a row never comes back empty. -/
theorem maxAux_some_exists :
    ∀ (l : List Row) (m : Row), ∃ lv, maxTsRowAux (some m) l = some lv := by
  intro l
  induction l with
  | nil => intro m; exact ⟨m, rfl⟩
  | cons r rest ih =>
    intro m
    by_cases hc : m.ts < r.ts
    · simp only [maxTsRowAux, if_pos hc]
      exact ih r
    · simp only [maxTsRowAux, if_neg hc]
      exact ih m

/-- `ORDER BY ... LIMIT 1` on a non-empty table returns a row. -/
theorem maxTsRow_ne_none (l : List Row) (h : l ≠ []) :
    ∃ lv, maxTsRow l = some lv := by
  cases l with
  | nil => exact absurd rfl h
  | cons r rest =>
    show ∃ lv, maxTsRowAux (some r) rest = some lv
    exact maxAux_some_exists rest r

theorem blockRows_length (op : CommitOp) :
    (blockRows op).length = op.dels.length + op.adds.length := by
  simp [blockRows, csRows]

theorem blockRows_ne_nil (op : CommitOp) (h : op.adds ≠ [] ∨ op.dels ≠ []) :
    blockRows op ≠ [] := by
  intro hnil
  have h0 : (blockRows op).length = 0 := by rw [hnil]; rfl
  rw [blockRows_length] at h0
  rcases h with h | h
  · exact h (List.length_eq_zero.mp (by omega))
  · exact h (List.length_eq_zero.mp (by omega))

/-- Every row of a commit's block carries the commit's id, timestamp
and graph. -/
theorem mem_blockRows (r : Row) (op : CommitOp) (h : r ∈ blockRows op) :
    r.id = op.uid ∧ r.ts = op.ts ∧ r.graph = op.gn := by
  simp only [blockRows, csRows, List.mem_append, List.mem_map] at h
  rcases h with ⟨t, _, rfl⟩ | ⟨t, _, rfl⟩ <;> exact ⟨rfl, rfl, rfl⟩

theorem rowsOf_append (a b : List CommitOp) :
    rowsOf (a ++ b) = rowsOf a ++ rowsOf b := by
  induction a with
  | nil => rfl
  | cons op rest ih => simp [rowsOf, ih]

theorem mem_rowsOf (r : Row) :
    ∀ (ops : List CommitOp), r ∈ rowsOf ops → ∃ op ∈ ops, r ∈ blockRows op := by
  intro ops
  induction ops with
  | nil => intro h; cases h
  | cons op rest ih =>
    intro h
    rcases List.mem_append.mp h with h1 | h2
    · exact ⟨op, List.mem_cons_self op rest, h1⟩
    · rcases ih h2 with ⟨op', hop', hr⟩
      exact ⟨op', List.mem_cons_of_mem op hop', hr⟩

theorem rowsOf_ne_nil (ops : List CommitOp) (hops : ops ≠ [])
    (hne : ∀ op ∈ ops, op.adds ≠ [] ∨ op.dels ≠ []) : rowsOf ops ≠ [] := by
  cases ops with
  | nil => exact absurd rfl hops
  | cons op rest =>
    show blockRows op ++ rowsOf rest ≠ []
    intro h
    rcases List.append_eq_nil.mp h with ⟨h1, _⟩
    exact blockRows_ne_nil op (hne op (List.mem_cons_self op rest)) h1

/-- A driver commit appends exactly its block of rows. -/
theorem doCommit_changesets (s : State) (op : CommitOp) :
    (doCommit s op).changesets = s.changesets ++ blockRows op := by
  simp [doCommit, new_changeset, runHooks_true, blockRows]

/-- A driver commit does not touch the redo table. -/
theorem doCommit_redos (s : State) (op : CommitOp) :
    (doCommit s op).redos = s.redos := by
  simp [doCommit, new_changeset, runHooks_true]

theorem applyCommits_changesets :
    ∀ (ops : List CommitOp) (s : State),
      (applyCommits s ops).changesets = s.changesets ++ rowsOf ops := by
  intro ops
  induction ops with
  | nil => intro s; simp [applyCommits, rowsOf]
  | cons op rest ih =>
    intro s
    show (applyCommits (doCommit s op) rest).changesets = _
    rw [ih (doCommit s op), doCommit_changesets]
    simp [rowsOf]

theorem applyCommits_redos :
    ∀ (ops : List CommitOp) (s : State), (applyCommits s ops).redos = s.redos := by
  intro ops
  induction ops with
  | nil => intro s; rfl
  | cons op rest ih =>
    intro s
    show (applyCommits (doCommit s op) rest).redos = _
    rw [ih (doCommit s op), doCommit_redos]

/-- A non-empty constant list collects to a singleton finset. -/
theorem toFinset_const {α : Type} [DecidableEq α] (l : List α) (a : α) (hne : l ≠ [])
    (h : ∀ x ∈ l, x = a) : l.toFinset = {a} := by
  ext x
  simp only [List.mem_toFinset, Finset.mem_singleton]
  constructor
  · exact h x
  · intro hx
    cases l with
    | nil => exact absurd rfl hne
    | cons y ys =>
      rw [hx, ← h y (List.mem_cons_self y ys)]
      exact List.mem_cons_self y ys

/-- One `undo()` on a collection whose log is the blocks of
`init ++ [op]` (timestamps of `init` strictly below `op`'s, distinct
ids, `init` non-empty) succeeds, drops exactly `op`'s block from the
active log and appends it to the redo log. -/
theorem undo_last (init : List CommitOp) (op : CommitOp) (s : State)
    (hcs : s.changesets = rowsOf (init ++ [op]))
    (hinit : init ≠ [])
    (hne : ∀ o ∈ init ++ [op], o.adds ≠ [] ∨ o.dels ≠ [])
    (hts : ∀ o ∈ init, o.ts < op.ts)
    (huid : ∀ o ∈ init, o.uid ≠ op.uid) :
    ∃ s', undo s = (s', none) ∧ s'.changesets = rowsOf init ∧
      s'.redos = s.redos ++ blockRows op := by
  have hbne : blockRows op ≠ [] := blockRows_ne_nil op (hne op (by simp))
  obtain ⟨b0, bt, hB⟩ : ∃ b0 bt, blockRows op = b0 :: bt := by
    cases hBB : blockRows op with
    | nil => exact absurd hBB hbne
    | cons x xs => exact ⟨x, xs, rfl⟩
  have hb0 : b0 ∈ blockRows op := by
    rw [hB]
    exact List.mem_cons_self _ _
  obtain ⟨hb0id, hb0ts, _⟩ := mem_blockRows b0 op hb0
  have hROp : rowsOf [op] = blockRows op := by simp [rowsOf]
  have hbt : ∀ r ∈ bt, r.ts ≤ b0.ts := by
    intro r hr
    have hrB : r ∈ blockRows op := by
      rw [hB]
      exact List.mem_cons_of_mem _ hr
    rw [(mem_blockRows r op hrB).2.1, hb0ts]
  have hlv : latest_version s = some b0 := by
    show maxTsRow s.changesets = some b0
    rw [hcs, rowsOf_append, hROp]
    show maxTsRowAux none (rowsOf init ++ blockRows op) = some b0
    rw [maxAux_append]
    rcases hA : maxTsRowAux none (rowsOf init) with _ | m
    · rw [hB]
      show maxTsRowAux (some b0) bt = some b0
      exact maxAux_const b0 bt hbt
    · have hm : m ∈ rowsOf init := by
        rcases maxAux_mem (rowsOf init) none m hA with hmm | hmm
        · exact hmm
        · simp at hmm
      obtain ⟨o, ho, hmo⟩ := mem_rowsOf m init hm
      have hmts : m.ts < b0.ts := by
        rw [(mem_blockRows m o hmo).2.1, hb0ts]
        exact hts o ho
      rw [hB]
      show maxTsRowAux (if m.ts < b0.ts then some b0 else some m) bt = some b0
      rw [if_pos hmts]
      exact maxAux_const b0 bt hbt
  have hft : s.changesets.filter (fun r => decide (r.ts < b0.ts)) = rowsOf init := by
    rw [hcs, rowsOf_append, hROp, List.filter_append]
    have h1 : (rowsOf init).filter (fun r => decide (r.ts < b0.ts)) = rowsOf init := by
      apply List.filter_eq_self.mpr
      intro r hr
      obtain ⟨o, ho, hro⟩ := mem_rowsOf r init hr
      have : r.ts < b0.ts := by
        rw [(mem_blockRows r o hro).2.1, hb0ts]
        exact hts o ho
      simpa using this
    have h2 : (blockRows op).filter (fun r => decide (r.ts < b0.ts)) = [] := by
      apply List.filter_eq_nil_iff.mpr
      intro r hr
      have : ¬ r.ts < b0.ts := by
        rw [(mem_blockRows r op hr).2.1, hb0ts]
        exact lt_irrefl op.ts
      simpa using this
    rw [h1, h2, List.append_nil]
  have hrne : rowsOf init ≠ [] :=
    rowsOf_ne_nil init hinit (fun o ho => hne o (by simp [ho]))
  obtain ⟨mv, hmv⟩ := maxTsRow_ne_none (rowsOf init) hrne
  have hvb : version_before s b0.ts = some mv.ts := by
    unfold version_before
    rw [hft, hmv]
    rfl
  have hidT : s.changesets.filter (fun r => r.id == b0.id) = blockRows op := by
    rw [hcs, rowsOf_append, hROp, List.filter_append]
    have h1 : (rowsOf init).filter (fun r => r.id == b0.id) = [] := by
      apply List.filter_eq_nil_iff.mpr
      intro r hr
      obtain ⟨o, ho, hro⟩ := mem_rowsOf r init hr
      have : r.id ≠ b0.id := by
        rw [(mem_blockRows r o hro).1, hb0id]
        exact huid o ho
      simpa using this
    have h2 : (blockRows op).filter (fun r => r.id == b0.id) = blockRows op := by
      apply List.filter_eq_self.mpr
      intro r hr
      have : r.id = b0.id := by
        rw [(mem_blockRows r op hr).1, hb0id]
      simpa using this
    rw [h1, h2, List.nil_append]
  have hidF : s.changesets.filter (fun r => r.id != b0.id) = rowsOf init := by
    rw [hcs, rowsOf_append, hROp, List.filter_append]
    have h1 : (rowsOf init).filter (fun r => r.id != b0.id) = rowsOf init := by
      apply List.filter_eq_self.mpr
      intro r hr
      obtain ⟨o, ho, hro⟩ := mem_rowsOf r init hr
      have : r.id ≠ b0.id := by
        rw [(mem_blockRows r o hro).1, hb0id]
        exact huid o ho
      simpa using this
    have h2 : (blockRows op).filter (fun r => r.id != b0.id) = [] := by
      apply List.filter_eq_nil_iff.mpr
      intro r hr
      have : r.id = b0.id := by
        rw [(mem_blockRows r op hr).1, hb0id]
      simpa using this
    rw [h1, h2, List.append_nil]
  have hu : undo s = ({ s with
      live := graph_at_cg s.live s.changesets mv.ts none,
      redos := s.redos ++ s.changesets.filter (fun r => r.id == b0.id),
      changesets := s.changesets.filter (fun r => r.id != b0.id) }, none) := by
    simp only [undo, hlv, hvb]
  refine ⟨_, hu, ?_, ?_⟩
  · exact hidF
  · rw [hidT]

/-- Iterated undo on a committed history: each successful `undo()`
peels exactly the newest block off the active log and moves its rows
to the redo log, so after `j` successful undos the active log holds
the first `length - j` blocks and the redo log covers `j` more
distinct changeset ids. -/
theorem undo_chain :
    ∀ (j : Nat) (ops : List CommitOp) (s s' : State),
      s.changesets = rowsOf ops →
      (∀ o ∈ ops, o.adds ≠ [] ∨ o.dels ≠ []) →
      List.Pairwise (fun a b => a.ts < b.ts) ops →
      (ops.map (fun o => o.uid)).Nodup →
      (∀ o ∈ ops, ∀ r ∈ s.redos, r.id ≠ o.uid) →
      undoN j s = some s' →
      s'.changesets = rowsOf (ops.take (ops.length - j)) ∧
      (s'.redos.map (fun r => r.id)).toFinset.card
        = (s.redos.map (fun r => r.id)).toFinset.card + j := by
  intro j
  induction j with
  | zero =>
    intro ops s s' hcs _ _ _ _ h
    simp only [undoN] at h
    cases h
    constructor
    · rw [Nat.sub_zero, List.take_length, hcs]
    · simp
  | succ n ih =>
    intro ops s s' hcs hne hts hnodup hred h
    rcases List.eq_nil_or_concat ops with rfl | ⟨init, op, hops⟩
    · exfalso
      have hu : undo s = (s, some Err.noUndoHistory) := by
        simp [undo, latest_version, maxTsRow, hcs, rowsOf, maxTsRowAux]
      simp [undoN, hu] at h
    · rw [List.concat_eq_append] at hops
      subst hops
      rcases eq_or_ne init [] with rfl | hinit
      · exfalso
        simp only [List.nil_append] at hcs hne
        have hbne : blockRows op ≠ [] :=
          blockRows_ne_nil op (hne op (List.mem_cons_self op []))
        have hcs' : s.changesets = blockRows op := by
          rw [hcs]
          simp [rowsOf]
        obtain ⟨lv, hlv⟩ := maxTsRow_ne_none s.changesets (by rw [hcs']; exact hbne)
        have hlvm : lv ∈ blockRows op := by
          rcases maxAux_mem s.changesets none lv hlv with hm | hm
          · rw [hcs'] at hm
            exact hm
          · simp at hm
        have hlts : lv.ts = op.ts := (mem_blockRows lv op hlvm).2.1
        have hfe : s.changesets.filter (fun r => decide (r.ts < lv.ts)) = [] := by
          apply List.filter_eq_nil_iff.mpr
          intro r hr
          rw [hcs'] at hr
          have : ¬ r.ts < lv.ts := by
            rw [(mem_blockRows r op hr).2.1, hlts]
            exact lt_irrefl _
          simpa using this
        have hvb : version_before s lv.ts = none := by
          unfold version_before
          rw [hfe]
          rfl
        have hu : undo s = (s, some Err.noneSubscript) := by
          simp [undo, show latest_version s = some lv from hlv, hvb]
        simp [undoN, hu] at h
      · have hpw := List.pairwise_append.mp hts
        have hts' : ∀ o ∈ init, o.ts < op.ts := by
          intro o ho
          exact hpw.2.2 o ho op (List.mem_cons_self op [])
        have hnodup' : ((init.map (fun o => o.uid)) ++ [op.uid]).Nodup := by
          simpa using hnodup
        have hsplit := List.nodup_append.mp hnodup'
        have huid' : ∀ o ∈ init, o.uid ≠ op.uid := by
          intro o ho he
          exact hsplit.2.2 (List.mem_map_of_mem _ ho) (by simp [he])
        obtain ⟨s₁, hu, hcs₁, hred₁⟩ :=
          undo_last init op s hcs hinit hne hts' huid'
        have h' : undoN n s₁ = some s' := by
          simp only [undoN, hu] at h
          exact h
        have hred₁' : ∀ o ∈ init, ∀ r ∈ s₁.redos, r.id ≠ o.uid := by
          intro o ho r hr
          rw [hred₁] at hr
          rcases List.mem_append.mp hr with hr1 | hr2
          · exact hred o (by simp [ho]) r hr1
          · rw [(mem_blockRows r op hr2).1]
            intro he
            exact huid' o ho he.symm
        obtain ⟨hA, hB⟩ := ih init s₁ s' hcs₁
          (fun o ho => hne o (by simp [ho])) hpw.1 hsplit.1 hred₁' h'
        constructor
        · rw [hA]
          congr 1
          have hlen : (init ++ [op]).length = init.length + 1 := by simp
          rw [hlen]
          have hsub : init.length + 1 - (n + 1) = init.length - n := by omega
          rw [hsub, List.take_append_eq_append_take]
          have h0 : init.length - n - init.length = 0 := by omega
          rw [h0]
          simp
        · rw [hB, hred₁, List.map_append, List.toFinset_append]
          have hone : ((blockRows op).map (fun r => r.id)).toFinset = {op.uid} := by
            apply toFinset_const
            · intro hnil
              exact blockRows_ne_nil op (hne op (by simp)) (List.map_eq_nil_iff.mp hnil)
            · intro x hx
              rcases List.mem_map.mp hx with ⟨r, hr, hrx⟩
              rw [← hrx]
              exact (mem_blockRows r op hr).1
          rw [hone]
          have hnotin : op.uid ∉ (s.redos.map (fun r => r.id)).toFinset := by
            rw [List.mem_toFinset]
            intro hmem
            rcases List.mem_map.mp hmem with ⟨r, hr, hrid⟩
            exact hred op (by simp) r hr hrid
          rw [Finset.union_comm, ← Finset.insert_eq,
            Finset.card_insert_of_not_mem hnotin]
          omega

/-- Each non-empty commit block contributes exactly one `SELECT
DISTINCT id, graph, timestamp` entry. -/
theorem dedup_rows_card :
    ∀ (ops : List CommitOp), (∀ o ∈ ops, o.adds ≠ [] ∨ o.dels ≠ []) →
      ((ops.map (fun o => o.uid)).Nodup) →
      ((rowsOf ops).map (fun r => (r.id, r.graph, r.ts))).toFinset.card = ops.length := by
  intro ops
  induction ops with
  | nil => intro _ _; simp [rowsOf]
  | cons op rest ih =>
    intro hne hnodup
    have hnd : op.uid ∉ rest.map (fun o => o.uid) ∧ (rest.map (fun o => o.uid)).Nodup := by
      rw [List.map_cons, List.nodup_cons] at hnodup
      exact hnodup
    show ((blockRows op ++ rowsOf rest).map (fun r => (r.id, r.graph, r.ts))).toFinset.card
      = rest.length + 1
    rw [List.map_append, List.toFinset_append]
    have hone : ((blockRows op).map (fun r => (r.id, r.graph, r.ts))).toFinset
        = {(op.uid, op.gn, op.ts)} := by
      apply toFinset_const
      · intro hnil
        exact blockRows_ne_nil op (hne op (List.mem_cons_self op rest))
          (List.map_eq_nil_iff.mp hnil)
      · intro x hx
        rcases List.mem_map.mp hx with ⟨r, hr, hrx⟩
        obtain ⟨h1, h2, h3⟩ := mem_blockRows r op hr
        rw [← hrx, h1, h2, h3]
    rw [hone]
    have hnotin : (op.uid, op.gn, op.ts)
        ∉ ((rowsOf rest).map (fun r => (r.id, r.graph, r.ts))).toFinset := by
      rw [List.mem_toFinset]
      intro hmem
      rcases List.mem_map.mp hmem with ⟨r, hr, hrx⟩
      obtain ⟨o', ho', hro'⟩ := mem_rowsOf r rest hr
      have hid : r.id = op.uid := congrArg Prod.fst hrx
      have : op.uid ∈ rest.map (fun o => o.uid) := by
        rw [← hid, (mem_blockRows r o' hro').1]
        exact List.mem_map_of_mem _ ho'
      exact hnd.1 this
    rw [← Finset.insert_eq, Finset.card_insert_of_not_mem hnotin,
      ih (fun o ho => hne o (List.mem_cons_of_mem op ho)) hnd.2]

theorem insertTsDesc_length {α : Type} (key : α → Ts) (r : α) (l : List α) :
    (insertTsDesc key r l).length = l.length + 1 := by
  induction l with
  | nil => rfl
  | cons x xs ih =>
    simp only [insertTsDesc]
    by_cases h : key r ≤ key x
    · rw [if_pos h]
      simp [ih]
    · rw [if_neg h]
      simp

theorem sortTsDesc_length {α : Type} (key : α → Ts) (l : List α) :
    (sortTsDesc key l).length = l.length := by
  have gen : ∀ (l acc : List α),
      (l.foldl (fun a r => insertTsDesc key r a) acc).length = acc.length + l.length := by
    intro l
    induction l with
    | nil => intro acc; simp
    | cons x xs ih =>
      intro acc
      simp only [List.foldl_cons]
      rw [ih (insertTsDesc key x acc), insertTsDesc_length, List.length_cons]
      omega
  simpa [sortTsDesc] using gen l []

/-- `versions()` (no graph filter) has one entry per distinct
`(id, graph, timestamp)` grouping of the active log. -/
theorem versions_none_length (s : State) :
    (versions s none).length
      = ((s.changesets.map (fun r => (r.id, r.graph, r.ts))).dedup).length := by
  simp [versions, sortTsDesc_length]

/-- C8: after k successful non-empty commits on a fresh collection
followed by j successful undos, `versions()` has exactly k - j entries
and the redo log holds rows for exactly j distinct changeset ids (so
each commit adds one entry and each undo removes one). -/
theorem c8_history_bookkeeping (ops : List CommitOp) (j : Nat) (s' : State)
    (hne : ∀ op ∈ ops, op.adds ≠ [] ∨ op.dels ≠ [])
    (hts : List.Pairwise (fun a b => a.ts < b.ts) ops)
    (hnodup : (ops.map (fun o => o.uid)).Nodup)
    (hj : j ≤ ops.length)
    (h : undoN j (applyCommits freshState ops) = some s') :
    (versions s' none).length = ops.length - j ∧
    (s'.redos.map (fun r => r.id)).toFinset.card = j := by
  have hcs : (applyCommits freshState ops).changesets = rowsOf ops := by
    rw [applyCommits_changesets]
    rfl
  have hrd : (applyCommits freshState ops).redos = [] := by
    rw [applyCommits_redos]
    rfl
  obtain ⟨hA, hB⟩ := undo_chain j ops (applyCommits freshState ops) s' hcs hne hts
    hnodup (by rw [hrd]; intro o _ r hr; cases hr) h
  constructor
  · rw [versions_none_length, hA, ← List.card_toFinset]
    have htake_ne : ∀ o ∈ ops.take (ops.length - j), o.adds ≠ [] ∨ o.dels ≠ [] :=
      fun o ho => hne o (List.take_subset _ _ ho)
    have htake_nd : ((ops.take (ops.length - j)).map (fun o => o.uid)).Nodup := by
      rw [List.map_take]
      exact hnodup.sublist (List.take_sublist _ _)
    rw [dedup_rows_card (ops.take (ops.length - j)) htake_ne htake_nd,
      List.length_take]
    omega
  · rw [hB, hrd]
    simp

/-- Two-commit scenario for the C8 witness. -/
def c8Ops : List CommitOp :=
  [⟨"g", 1, "ca", [("a", "p", "o")], []⟩, ⟨"g", 2, "cb", [("b", "p", "o")], []⟩]

/-- The state after one successful undo of the two-commit history. -/
def c8S1 : State := (undo (applyCommits freshState c8Ops)).1

/-- Witness for C8 with k = 2 commits and j = 1 undo. -/
theorem c8_witness :
    undoN 1 (applyCommits freshState c8Ops) = some c8S1 ∧
    (versions c8S1 none).length = 1 ∧
    (c8S1.redos.map (fun r => r.id)).toFinset.card = 1 := by
  have h : undoN 1 (applyCommits freshState c8Ops) = some c8S1 := by decide
  refine ⟨h, ?_, ?_⟩
  · exact (c8_history_bookkeeping c8Ops 1 c8S1 (by decide) (by decide) (by decide)
      (by decide) h).1
  · exact (c8_history_bookkeeping c8Ops 1 c8S1 (by decide) (by decide) (by decide)
      (by decide) h).2
